import Mathlib

/-!
Verification of the LUT-accelerated binary search implementation
(`main.cpp` of the lut-binary-search repository).

The C++ core is shallowly embedded as executable Lean definitions:

* machine integers are modelled as `Nat` / `Int` with explicit reductions
  modulo `2^32` / `2^64` exactly where the C++ types (`uint32_t`, `size_t`,
  `ssize_t`) wrap;
* the backing array `Vals` is a `List`;
* an out-of-bounds `std::vector` read (undefined behaviour in C++) makes the
  embedded search return `none`; a normally returned `ssize_t` becomes
  `some i`;
* each supported element domain is given by its comparison functions and its
  `MapValue` specialisation; 32-bit floats are represented by their IEEE-754
  bit patterns, with the (non-NaN) IEEE order expressed on the patterns.
-/

namespace LutSearch

/-- Number of values of a C++ 64-bit `size_t`. -/
def U64 : Nat := 18446744073709551616

/-- Conversion of a C++ signed value to `size_t` (reduction mod `2^64`),
as in `size_t __len = right - left;` (main.cpp line 82). -/
def toU64 (i : Int) : Nat := (i % (U64 : Int)).toNat

/-- Conversion of a `size_t` value to `ssize_t` (values `≥ 2^63` wrap to
negative), as in the implicit conversions at main.cpp lines 76 and 101. -/
def toS64 (n : Nat) : Int :=
  if n < 9223372036854775808 then (n : Int) else (n : Int) - (U64 : Int)

/-- Subtraction of 1 on a `size_t` value (wraps at 0), used for
`Vals.size()-1` and `Lut[lutIdx+1]-1` (main.cpp line 75). -/
def subOne64 (n : Nat) : Nat := (n + U64 - 1) % U64

/-- Unchecked read `Lut[i]` of the lookup table (`std::vector<size_t>`);
in-bounds accesses are proved separately, so the default value is never
relevant for the accesses the code performs. -/
def lutGet (l : List Nat) (i : Nat) : Nat := (l[i]?).getD 0

/-! ### MapValue (main.cpp lines 17-42) -/

/-- MapValue specialisation for `uint32_t` (main.cpp line 24): identity. -/
def MapValueUInt32 (val : Nat) : Nat := val

/-- MapValue specialisation for `int32_t` (main.cpp line 29):
`(uint32_t)val ^ 0x80000000` — reinterpret as unsigned (mod `2^32`),
then flip the sign bit. -/
def MapValueInt32 (val : Int) : Nat :=
  (val % 4294967296).toNat ^^^ 2147483648

/-- MapValue specialisation for `float` (main.cpp line 35), acting on the
IEEE-754 bit pattern `cv`:
`mask = (-(int32_t)(cv>>31)) | 0x80000000; return cv ^ mask;`.
The negation of the sign bit is two's-complement negation mod `2^32`. -/
def MapValueFloat (cv : Nat) : Nat :=
  cv ^^^ (((4294967296 - (cv >>> 31)) % 4294967296) ||| 2147483648)

/-! ### The float domain order

A 32-bit float is represented by its bit pattern `a < 2^32`.  For non-NaN
patterns the IEEE-754 value order is captured by the signed magnitude
`floatVal`: sign bit set means value `-(a mod 2^31)` on the magnitude scale,
otherwise `+(a mod 2^31)` (the low 31 bits of a non-NaN float are
monotonically encoded in the value's magnitude, with both zeros at 0). -/

/-- Signed magnitude of a float bit pattern: order-isomorphic to the IEEE
value order on non-NaN patterns (identifies `+0.0` and `-0.0`). -/
def floatVal (a : Nat) : Int :=
  if a >>> 31 = 1 then -((a % 2147483648 : Nat) : Int) else ((a % 2147483648 : Nat) : Int)

/-- A bit pattern is a NaN iff the exponent is all ones and the mantissa is
non-zero, i.e. the low 31 bits exceed `0x7F800000`. -/
def isNan32 (a : Nat) : Prop := 2139095040 < a % 2147483648

instance (a : Nat) : Decidable (isNan32 a) := by unfold isNan32; infer_instance

/-- IEEE `<` on non-NaN float bit patterns. -/
def floatLtb (a b : Nat) : Bool := decide (floatVal a < floatVal b)

/-- IEEE `==` on non-NaN float bit patterns. -/
def floatEqb (a b : Nat) : Bool := decide (floatVal a = floatVal b)

/-- Comparison `<` of the `uint32_t` domain. -/
def ltbUInt32 (a b : Nat) : Bool := decide (a < b)

/-- Comparison `==` of the `uint32_t` domain. -/
def eqbUInt32 (a b : Nat) : Bool := decide (a = b)

/-- Comparison `<` of the `int32_t` domain. -/
def ltbInt32 (a b : Int) : Bool := decide (a < b)

/-- Comparison `==` of the `int32_t` domain. -/
def eqbInt32 (a b : Int) : Bool := decide (a = b)

/-! ### The shared generic binary search (main.cpp lines 80-122)

```cpp
ssize_t BinarySearch(ssize_t left, ssize_t right, T key) const
{
    size_t __len = right-left;
    size_t __first = left;
    while (__len > 0)
    {
        size_t __half = __len >> 1;
        size_t __middle = __first+__half;
        if (Vals[__middle] < key)
        {
            __first = __middle; ++__first;
            __len = __len - __half - 1;
        }
        else
            __len = __half;
    }
    return __first;
    // ... commented-out variant, then (unreachable):
    // assert(left == right);
    // return (Vals[left] == key ? left : -1);
}
```

Note that `return __first;` at line 101 makes lines 120-121 unreachable:
the function never performs the `Vals[left] == key` post-check and never
returns `-1`.

The loop is embedded with an explicit fuel argument equal to the initial
`__len`; `__len` strictly decreases on every iteration, so the
fuel-exhaustion branch (`fuel = 0` with `len > 0`) is unreachable from
`BinarySearch` below, which starts with `fuel = len`. -/

/-- One embedded run of the `while (__len > 0)` loop.  Arguments:
fuel, `__len`, `__first`.  Returns `none` iff `Vals[__middle]` is read out
of bounds (undefined behaviour of the C++ code). -/
def bsLoop (ltb : α → α → Bool) (vals : List α) (key : α) :
    Nat → Nat → Nat → Option Nat
  | _, 0, first => some first
  | 0, _ + 1, _ => none
  | fuel + 1, len + 1, first =>
    match vals[(first + (len + 1) / 2) % U64]? with
    | none => none
    | some v =>
      if ltb v key then
        bsLoop ltb vals key fuel (len + 1 - (len + 1) / 2 - 1)
          (((first + (len + 1) / 2) % U64 + 1) % U64)
      else
        bsLoop ltb vals key fuel ((len + 1) / 2) first

/-- `SearchPod32::BinarySearch` (main.cpp lines 80-122). -/
def BinarySearch (ltb : α → α → Bool) (vals : List α) (left right : Int)
    (key : α) : Option Int :=
  (bsLoop ltb vals key (toU64 (right - left)) (toU64 (right - left))
    (toU64 left)).map toS64

/-- `SearchPod32::MyBinarySearch` (main.cpp lines 61-64):
`BinarySearch(0, (ssize_t)Vals.size()-1, key)`. -/
def MyBinarySearch (ltb : α → α → Bool) (vals : List α) (key : α) :
    Option Int :=
  BinarySearch ltb vals 0 ((vals.length : Int) - 1) key

/-- `SearchPod32::StdBinarySearch` (main.cpp lines 55-59).
`std::lower_bound` on a range partitioned with respect to `< key` (which a
sorted range is) returns the partition point, i.e. the first position whose
element is not `< key`; on a `List` that position is the length of the
longest prefix of elements `< key`. -/
def StdBinarySearch (ltb eqb : α → α → Bool) (vals : List α) (key : α) :
    Int :=
  let i := (vals.takeWhile (fun v => ltb v key)).length
  if h : i < vals.length then
    (if eqb (vals.get ⟨i, h⟩) key then (i : Int) else -1)
  else -1

/-! ### LUT construction (main.cpp lines 124-161) -/

/-- Write `v` into positions `lo, lo+1, …, lo+cnt-1` of the table
(out-of-range writes are dropped, as `List.set` ignores them; the code's
writes are proved in-bounds).  Models the two `for` fill loops of
`InitLut`. -/
def lutFill (l : List Nat) (v : Nat) : Nat → Nat → List Nat
  | _, 0 => l
  | lo, cnt + 1 => lutFill (l.set lo v) v (lo + 1) cnt

/-- The main loop of `InitLut` (main.cpp lines 132-146), iterating over
`Vals[i+1]` for `i = 0 … N-2`; the list argument is `Vals.tail`.
State: `(i, thresh, last, lut)`; returns the final `(lut, thresh, last)`. -/
def InitLutLoop (mapV : α → Nat) (B : Nat) :
    Nat → Nat → Nat → List Nat → List α → List Nat × Nat × Nat
  | _, thresh, last, lut, [] => (lut, thresh, last)
  | i, thresh, last, lut, v :: rest =>
    let nextThresh := mapV v >>> (32 - B)
    let lut1 := lut.set thresh last
    if thresh < nextThresh then
      InitLutLoop mapV B (i + 1) nextThresh (i + 1)
        (lutFill lut1 (i + 1) (thresh + 1) (nextThresh - thresh)) rest
    else
      InitLutLoop mapV B (i + 1) nextThresh last lut1 rest

/-- `SearchPod32::InitLut` (main.cpp lines 124-161) for bit width `B`:
allocate `2^B + 1` zeroed entries, run the main loop, then fill the
remaining positions `thresh … 2^B - 1` with `last`.  Returns the table
and `LutEnd` (the final `thresh`). -/
def InitLut (mapV : α → Nat) (B : Nat) (vals : List α) : List Nat × Nat :=
  let r := InitLutLoop mapV B 0 0 0 (List.replicate (2 ^ B + 1) 0) vals.tail
  (lutFill r.1 r.2.2 r.2.1 (2 ^ B - r.2.1), r.2.1)

/-- The interval end computed by `LutBinarySearch` (main.cpp line 75), as a
`size_t` value:
`lutIdx+1 >= LutEnd ? Vals.size()-1 : Lut[lutIdx+1]-1`. -/
def LutNarrowedEnd (mapV : α → Nat) (B : Nat) (vals : List α) (key : α) :
    Nat :=
  let r := InitLut mapV B vals
  let lutIdx := mapV key >>> (32 - B)
  if r.2 ≤ lutIdx + 1 then subOne64 vals.length
  else subOne64 (lutGet r.1 (lutIdx + 1))

/-- `SearchPod32::LutBinarySearch` (main.cpp lines 66-77). -/
def LutBinarySearch (mapV : α → Nat) (ltb : α → α → Bool) (B : Nat)
    (vals : List α) (key : α) : Option Int :=
  let r := InitLut mapV B vals
  let lutIdx := mapV key >>> (32 - B)
  BinarySearch ltb vals (toS64 (lutGet r.1 lutIdx))
    (toS64 (LutNarrowedEnd mapV B vals key)) key

/-! ### Bitwise arithmetic helpers -/

/-- XOR with `2^n` on a value below `2^n` sets bit `n`, i.e. adds `2^n`. -/
theorem xor_two_pow_of_lt {a n : Nat} (h : a < 2 ^ n) :
    a ^^^ 2 ^ n = a + 2 ^ n := by
  apply Nat.eq_of_testBit_eq
  intro i
  rcases Nat.lt_trichotomy i n with hi | rfl | hi
  · rw [Nat.testBit_xor, Nat.testBit_two_pow_of_ne (by omega), Nat.add_comm,
      Nat.testBit_two_pow_add_gt hi]
    simp
  · rw [Nat.testBit_xor, Nat.testBit_two_pow_self, Nat.add_comm,
      Nat.testBit_two_pow_add_eq, Nat.testBit_lt_two_pow h]
    simp
  · have hpow : 2 ^ n + 2 ^ n ≤ 2 ^ i := by
      calc 2 ^ n + 2 ^ n = 2 ^ (n + 1) := by rw [pow_succ]; omega
        _ ≤ 2 ^ i := Nat.pow_le_pow_right (by norm_num) (by omega)
    rw [Nat.testBit_xor, Nat.testBit_two_pow_of_ne (by omega),
      Nat.testBit_lt_two_pow (show a + 2 ^ n < 2 ^ i by omega),
      Nat.testBit_lt_two_pow (show a < 2 ^ i by omega)]
    simp

/-- XOR with `2^n` on a value in `[2^n, 2^(n+1))` clears bit `n`. -/
theorem xor_two_pow_of_ge {a n : Nat} (h1 : 2 ^ n ≤ a) (h2 : a < 2 ^ (n + 1)) :
    a ^^^ 2 ^ n = a - 2 ^ n := by
  have hu : a - 2 ^ n < 2 ^ n := by have := pow_succ 2 n; omega
  have ha : (a - 2 ^ n) ^^^ 2 ^ n = a := by rw [xor_two_pow_of_lt hu]; omega
  calc a ^^^ 2 ^ n = ((a - 2 ^ n) ^^^ 2 ^ n) ^^^ 2 ^ n := by rw [ha]
    _ = (a - 2 ^ n) ^^^ (2 ^ n ^^^ 2 ^ n) := Nat.xor_assoc ..
    _ = a - 2 ^ n := by rw [Nat.xor_self, Nat.xor_zero]

/-- XOR with the all-ones mask `2^n - 1` is complement below `2^n`. -/
theorem xor_two_pow_sub_one {a n : Nat} (h : a < 2 ^ n) :
    a ^^^ (2 ^ n - 1) = 2 ^ n - 1 - a := by
  apply Nat.eq_of_testBit_eq
  intro i
  have hsub : 2 ^ n - 1 - a = 2 ^ n - (a + 1) := by omega
  rw [Nat.testBit_xor, Nat.testBit_two_pow_sub_one, hsub,
    Nat.testBit_two_pow_sub_succ h]
  by_cases hi : i < n
  · simp [hi]
  · have hia : a < 2 ^ i :=
      Nat.lt_of_lt_of_le h (Nat.pow_le_pow_right (by norm_num) (by omega))
    simp [hi, Nat.testBit_lt_two_pow hia]

/-- The top-`B`-bits bucket of a 32-bit value is below `2^B`. -/
theorem bucket_lt {B m : Nat} (hB : B ≤ 32) (hm : m < 4294967296) :
    m >>> (32 - B) < 2 ^ B := by
  rw [Nat.shiftRight_eq_div_pow]
  apply Nat.div_lt_of_lt_mul
  calc m < 4294967296 := hm
    _ = 2 ^ (32 - B) * 2 ^ B := by
        rw [← pow_add]
        have h32 : 32 - B + B = 32 := by omega
        rw [h32]
        norm_num

/-! ### Order preservation of the MapValue specialisations (claim C5) -/

/-- On the `int32_t` value range, `MapValueInt32` is the shift by `2^31`. -/
theorem MapValueInt32_eq {v : Int} (h1 : -2147483648 ≤ v)
    (h2 : v < 2147483648) :
    MapValueInt32 v = (v + 2147483648).toNat := by
  unfold MapValueInt32
  have h31 : (2147483648 : Nat) = 2 ^ 31 := by norm_num
  rcases le_or_lt 0 v with hv | hv
  · have hm : v % 4294967296 = v := Int.emod_eq_of_lt hv (by omega)
    rw [hm, h31, xor_two_pow_of_lt (show v.toNat < 2 ^ 31 by omega)]
    omega
  · have hm : v % 4294967296 = v + 4294967296 := by omega
    rw [hm, h31,
      xor_two_pow_of_ge (show 2 ^ 31 ≤ (v + 4294967296).toNat by omega)
        (show (v + 4294967296).toNat < 2 ^ (31 + 1) by omega)]
    omega

/-- Closed form of the float mapping on bit patterns: negative patterns are
complemented, non-negative ones get the sign bit set. -/
theorem MapValueFloat_eq {cv : Nat} (h : cv < 4294967296) :
    MapValueFloat cv =
      if cv >>> 31 = 1 then 2147483647 - cv % 2147483648
      else cv + 2147483648 := by
  unfold MapValueFloat
  have hs : cv >>> 31 = cv / 2147483648 := by
    simp [Nat.shiftRight_eq_div_pow]
  by_cases h1 : cv >>> 31 = 1
  · rw [if_pos h1, h1]
    have hmask : ((4294967296 - 1) % 4294967296) ||| 2147483648 = 2 ^ 32 - 1 := by
      decide
    rw [hmask, xor_two_pow_sub_one (show cv < 2 ^ 32 by omega)]
    omega
  · have h0 : cv >>> 31 = 0 := by omega
    rw [if_neg h1, h0]
    have hmask : ((4294967296 - 0) % 4294967296) ||| 2147483648 = 2 ^ 31 := by
      decide
    have hcv : cv < 2 ^ 31 := by
      rw [hs] at h0; omega
    rw [hmask, xor_two_pow_of_lt hcv]
    omega

/-- Claim C5: on each supported domain (`uint32_t` values, `int32_t` values,
non-NaN float bit patterns under the IEEE value order), the `MapValue`
specialisation is strictly monotone into the unsigned 32-bit keys. -/
theorem C5_mapvalue_strictly_monotone :
    (∀ a b : Nat, a < 4294967296 → b < 4294967296 → a < b →
      MapValueUInt32 a < MapValueUInt32 b) ∧
    (∀ a b : Int, -2147483648 ≤ a → b < 2147483648 → a < b →
      MapValueInt32 a < MapValueInt32 b) ∧
    (∀ a b : Nat, a < 4294967296 → b < 4294967296 →
      ¬ isNan32 a → ¬ isNan32 b → floatLtb a b = true →
      MapValueFloat a < MapValueFloat b) := by
  refine ⟨?_, ?_, ?_⟩
  · intro a b _ _ hab
    simpa [MapValueUInt32] using hab
  · intro a b h1 h2 hab
    rw [MapValueInt32_eq h1 (by omega), MapValueInt32_eq (by omega) h2]
    omega
  · intro a b ha hb _ _ hlt
    have hlt2 : floatVal a < floatVal b := by
      simpa [floatLtb] using hlt
    have hsa : a >>> 31 = a / 2147483648 := by
      simp [Nat.shiftRight_eq_div_pow]
    have hsb : b >>> 31 = b / 2147483648 := by
      simp [Nat.shiftRight_eq_div_pow]
    rw [MapValueFloat_eq ha, MapValueFloat_eq hb]
    unfold floatVal at hlt2
    have ha1 : a >>> 31 = 0 ∨ a >>> 31 = 1 := by rw [hsa]; omega
    have hb1 : b >>> 31 = 0 ∨ b >>> 31 = 1 := by rw [hsb]; omega
    rcases ha1 with h1 | h1 <;> rcases hb1 with h2 | h2
    · rw [if_neg (show ¬ a >>> 31 = 1 by omega),
        if_neg (show ¬ b >>> 31 = 1 by omega)] at hlt2 ⊢
      omega
    · rw [if_neg (show ¬ a >>> 31 = 1 by omega), if_pos h2] at hlt2 ⊢
      omega
    · rw [if_pos h1, if_neg (show ¬ b >>> 31 = 1 by omega)] at hlt2 ⊢
      omega
    · rw [if_pos h1, if_pos h2] at hlt2 ⊢
      omega

/-- Witness for C5 at concrete inputs: `1 < 2` in the unsigned domain,
`-5 < 3` in the signed domain, and `-1.0f < 1.0f` (bit patterns
`0xBF800000`, `0x3F800000`) in the float domain. -/
theorem C5_mapvalue_strictly_monotone_witness :
    MapValueUInt32 1 < MapValueUInt32 2 ∧
    MapValueInt32 (-5) < MapValueInt32 3 ∧
    MapValueFloat 3212836864 < MapValueFloat 1065353216 :=
  ⟨C5_mapvalue_strictly_monotone.1 1 2 (by norm_num) (by norm_num) (by norm_num),
   C5_mapvalue_strictly_monotone.2.1 (-5) 3 (by norm_num) (by norm_num) (by norm_num),
   C5_mapvalue_strictly_monotone.2.2 3212836864 1065353216 (by norm_num)
     (by norm_num) (by decide) (by decide) (by decide)⟩

/-! ### Conversion helpers -/

/-- `size_t` to `ssize_t` conversion is the identity below `2^63`. -/
theorem toS64_of_lt {n : Nat} (h : n < 9223372036854775808) :
    toS64 n = (n : Int) := by
  unfold toS64
  rw [if_pos h]

/-- A `size_t` subtraction of two in-range `ssize_t` values does not wrap. -/
theorem toU64_sub_of_le {a b : Nat} (h : a ≤ b) (h2 : b < U64) :
    toU64 ((b : Int) - (a : Int)) = b - a := by
  unfold toU64 U64 at *
  omega

/-- Casting a small nonnegative value to `size_t` is the identity. -/
theorem toU64_of_lt {n : Nat} (h : n < U64) : toU64 (n : Int) = n := by
  unfold toU64 U64 at *
  omega

/-- The wrapping `size_t` decrement agrees with subtraction on `[1, 2^64)`. -/
theorem subOne64_eq {n : Nat} (h1 : 1 ≤ n) (h2 : n < U64) :
    subOne64 n = n - 1 := by
  unfold subOne64 U64 at *
  omega

/-! ### Behaviour of the search loop on a well-formed range -/

/-- If the remaining range `[first, first+len]` lies inside the array (and
the array is small enough that no `size_t` computation wraps), the embedded
loop of `BinarySearch` performs only in-bounds reads and returns a position
inside that range.  The fuel never runs out because `__len` strictly
decreases. -/
theorem bsLoop_some (ltb : α → α → Bool) (vals : List α) (key : α) :
    ∀ fuel len first, len ≤ fuel → first + len < vals.length →
      vals.length ≤ 9223372036854775808 →
      ∃ f, bsLoop ltb vals key fuel len first = some f ∧
        first ≤ f ∧ f ≤ first + len := by
  intro fuel
  induction fuel with
  | zero =>
    intro len first hlf _ _
    have h0 : len = 0 := by omega
    subst h0
    exact ⟨first, rfl, Nat.le_refl _, by omega⟩
  | succ fuel ih =>
    intro len first hlf hin hlen
    match len with
    | 0 => exact ⟨first, rfl, Nat.le_refl _, by omega⟩
    | len + 1 =>
      have hhalf : (len + 1) / 2 ≤ len := by omega
      have hU : U64 = 18446744073709551616 := rfl
      have hmid : (first + (len + 1) / 2) % U64 = first + (len + 1) / 2 :=
        Nat.mod_eq_of_lt (by omega)
      have hmid_lt : first + (len + 1) / 2 < vals.length := by omega
      rw [bsLoop, hmid, List.getElem?_eq_getElem hmid_lt]
      simp only
      by_cases hcmp : ltb vals[first + (len + 1) / 2] key
      · rw [if_pos hcmp]
        have hmid1 : (first + (len + 1) / 2 + 1) % U64 =
            first + (len + 1) / 2 + 1 := Nat.mod_eq_of_lt (by omega)
        rw [hmid1]
        obtain ⟨f, hf, hf1, hf2⟩ :=
          ih (len + 1 - (len + 1) / 2 - 1) (first + (len + 1) / 2 + 1)
            (by omega) (by omega) hlen
        exact ⟨f, hf, by omega, by omega⟩
      · rw [if_neg hcmp]
        obtain ⟨f, hf, hf1, hf2⟩ :=
          ih ((len + 1) / 2) first (by omega) (by omega) hlen
        exact ⟨f, hf, hf1, by omega⟩

/-! ### Table access helpers -/

theorem lutGet_set_self {l : List Nat} {i : Nat} (h : i < l.length)
    (v : Nat) : lutGet (l.set i v) i = v := by
  unfold lutGet
  rw [List.getElem?_set_self (by simpa using h)]
  rfl

theorem lutGet_set_ne {l : List Nat} {i j : Nat} (h : i ≠ j) (v : Nat) :
    lutGet (l.set i v) j = lutGet l j := by
  unfold lutGet
  rw [List.getElem?_set_ne h]

theorem lutGet_replicate {n j : Nat} : lutGet (List.replicate n 0) j = 0 := by
  unfold lutGet
  rw [List.getElem?_replicate]
  by_cases h : j < n <;> simp [h]

theorem length_lutFill (v : Nat) :
    ∀ (cnt lo : Nat) (l : List Nat), (lutFill l v lo cnt).length = l.length := by
  intro cnt
  induction cnt with
  | zero => intro lo l; rfl
  | succ n ih => intro lo l; rw [lutFill, ih, List.length_set]

/-- Positions below the filled window are untouched. -/
theorem lutGet_lutFill_of_lt (v : Nat) :
    ∀ (cnt lo j : Nat) (l : List Nat), j < lo →
      lutGet (lutFill l v lo cnt) j = lutGet l j := by
  intro cnt
  induction cnt with
  | zero => intro lo j l _; rfl
  | succ n ih =>
    intro lo j l hj
    rw [lutFill, ih (lo + 1) j _ (by omega), lutGet_set_ne (by omega)]

/-- Positions at or above the end of the filled window are untouched. -/
theorem lutGet_lutFill_of_ge (v : Nat) :
    ∀ (cnt lo j : Nat) (l : List Nat), lo + cnt ≤ j →
      lutGet (lutFill l v lo cnt) j = lutGet l j := by
  intro cnt
  induction cnt with
  | zero => intro lo j l _; rfl
  | succ n ih =>
    intro lo j l hj
    rw [lutFill, ih (lo + 1) j _ (by omega), lutGet_set_ne (by omega)]

/-- Positions inside the filled window hold the written value. -/
theorem lutGet_lutFill_mem (v : Nat) :
    ∀ (cnt lo j : Nat) (l : List Nat), lo ≤ j → j < lo + cnt →
      j < l.length → lutGet (lutFill l v lo cnt) j = v := by
  intro cnt
  induction cnt with
  | zero => intro lo j l h1 h2 _; omega
  | succ n ih =>
    intro lo j l h1 h2 h3
    rw [lutFill]
    by_cases hj : j = lo
    · subst hj
      rw [lutGet_lutFill_of_lt v n (j + 1) j _ (by omega),
        lutGet_set_self h3]
    · exact ih (lo + 1) j _ (by omega) (by omega) (by simpa using h3)

/-! ### Invariant of the LUT construction loop -/

/-- Invariant of the `InitLut` main loop at state `(i, thresh, last, lut)`:
the table keeps its size, `thresh` stays a valid bucket, `last` never
exceeds the loop index, the table is monotone up to `thresh`, every entry is
at most `last`, and once `thresh` has left 0 both `last` and every entry in
`[1, thresh]` are at least 1. -/
structure LutInv (B i thresh last : Nat) (lut : List Nat) : Prop where
  len_eq : lut.length = 2 ^ B + 1
  thresh_le : thresh ≤ 2 ^ B - 1
  last_le : last ≤ i
  mono : ∀ p q : Nat, p ≤ q → q ≤ thresh → lutGet lut p ≤ lutGet lut q
  all_le : ∀ j : Nat, lutGet lut j ≤ last
  pos : 1 ≤ thresh → 1 ≤ last
  pos_entries : ∀ j : Nat, 1 ≤ j → j ≤ thresh → 1 ≤ lutGet lut j

/-- The write `Lut[thresh] = last` (main.cpp line 136) preserves the
invariant. -/
theorem LutInv_set {B i thresh last : Nat} {lut : List Nat}
    (h : LutInv B i thresh last lut) :
    LutInv B i thresh last (lut.set thresh last) := by
  have h2B : 1 ≤ 2 ^ B := Nat.one_le_two_pow
  have hlen : thresh < lut.length := by
    rw [h.len_eq]; have := h.thresh_le; omega
  have hat : lutGet (lut.set thresh last) thresh = last :=
    lutGet_set_self hlen last
  have hother : ∀ j, j ≠ thresh →
      lutGet (lut.set thresh last) j = lutGet lut j := by
    intro j hj
    exact lutGet_set_ne (by omega) last
  refine ⟨by rw [List.length_set, h.len_eq], h.thresh_le, h.last_le,
    ?_, ?_, h.pos, ?_⟩
  · intro p q hpq hqt
    by_cases hq : q = thresh
    · rw [hq, hat]
      by_cases hp : p = thresh
      · rw [hp, hat]
      · rw [hother p hp]; exact h.all_le p
    · rw [hother q hq, hother p (by omega)]
      exact h.mono p q hpq hqt
  · intro j
    by_cases hj : j = thresh
    · rw [hj, hat]
    · rw [hother j hj]; exact h.all_le j
  · intro j hj1 hj2
    by_cases hj : j = thresh
    · rw [hj, hat]; exact h.pos (by omega)
    · rw [hother j hj]; exact h.pos_entries j hj1 hj2

/-- Running the construction loop from an invariant state yields an
invariant state (the loop index advances by the number of processed
elements). -/
theorem InitLutLoop_inv (mapV : α → Nat) (B : Nat) (hB2 : B ≤ 31) :
    ∀ (rest : List α) (i thresh last : Nat) (lut : List Nat),
      (∀ v ∈ rest, mapV v < 4294967296) → LutInv B i thresh last lut →
      LutInv B (i + rest.length)
        (InitLutLoop mapV B i thresh last lut rest).2.1
        (InitLutLoop mapV B i thresh last lut rest).2.2
        (InitLutLoop mapV B i thresh last lut rest).1 := by
  intro rest
  induction rest with
  | nil =>
    intro i thresh last lut _ hinv
    simpa [InitLutLoop] using hinv
  | cons v rest ih =>
    intro i thresh last lut hm hinv
    have hmv : mapV v < 4294967296 := hm v (List.mem_cons_self v rest)
    have hm2 : ∀ w ∈ rest, mapV w < 4294967296 := fun w hw =>
      hm w (List.mem_cons_of_mem v hw)
    have ht' : mapV v >>> (32 - B) ≤ 2 ^ B - 1 := by
      have := bucket_lt (B := B) (by omega) hmv
      omega
    have h2B : 1 ≤ 2 ^ B := Nat.one_le_two_pow
    have hinv1 := LutInv_set hinv
    have hlen1 : (lut.set thresh last).length = 2 ^ B + 1 := hinv1.len_eq
    have hstep : i + (v :: rest).length = (i + 1) + rest.length := by
      simp [List.length_cons]; omega
    rw [hstep, InitLutLoop]
    by_cases hc : thresh < mapV v >>> (32 - B)
    · rw [if_pos hc]
      refine ih (i + 1) (mapV v >>> (32 - B)) (i + 1) _ hm2 ?_
      set t := mapV v >>> (32 - B) with hT
      have hfill_len :
          (lutFill (lut.set thresh last) (i + 1) (thresh + 1)
            (t - thresh)).length = 2 ^ B + 1 := by
        rw [length_lutFill, hlen1]
      have hget_low : ∀ j, j ≤ thresh →
          lutGet (lutFill (lut.set thresh last) (i + 1) (thresh + 1)
            (t - thresh)) j = lutGet (lut.set thresh last) j := by
        intro j hj
        exact lutGet_lutFill_of_lt _ _ _ _ _ (by omega)
      have hget_mem : ∀ j, thresh + 1 ≤ j → j ≤ t →
          lutGet (lutFill (lut.set thresh last) (i + 1) (thresh + 1)
            (t - thresh)) j = i + 1 := by
        intro j hj1 hj2
        exact lutGet_lutFill_mem _ _ _ _ _ hj1 (by omega)
          (by rw [hlen1]; omega)
      have hget_high : ∀ j, t + 1 ≤ j →
          lutGet (lutFill (lut.set thresh last) (i + 1) (thresh + 1)
            (t - thresh)) j = lutGet (lut.set thresh last) j := by
        intro j hj
        exact lutGet_lutFill_of_ge _ _ _ _ _ (by omega)
      refine ⟨hfill_len, ht', Nat.le_refl _, ?_, ?_, fun _ => by omega, ?_⟩
      · intro p q hpq hqt
        by_cases hq : q ≤ thresh
        · rw [hget_low p (by omega), hget_low q hq]
          exact hinv1.mono p q hpq hq
        · rw [hget_mem q (by omega) hqt]
          by_cases hp : p ≤ thresh
          · rw [hget_low p hp]
            have := hinv1.all_le p
            have := hinv1.last_le
            omega
          · rw [hget_mem p (by omega) (by omega)]
      · intro j
        by_cases hj1 : j ≤ thresh
        · rw [hget_low j hj1]
          have := hinv1.all_le j
          have := hinv1.last_le
          omega
        · by_cases hj2 : j ≤ t
          · rw [hget_mem j (by omega) hj2]
          · rw [hget_high j (by omega)]
            have := hinv1.all_le j
            have := hinv1.last_le
            omega
      · intro j hj1 hj2
        by_cases hj : j ≤ thresh
        · rw [hget_low j hj]
          exact hinv1.pos_entries j hj1 hj
        · rw [hget_mem j (by omega) hj2]
          omega
    · rw [if_neg hc]
      refine ih (i + 1) (mapV v >>> (32 - B)) last _ hm2 ?_
      refine ⟨hinv1.len_eq, ht', by have := hinv1.last_le; omega, ?_, ?_,
        ?_, ?_⟩
      · intro p q hpq hqt
        exact hinv1.mono p q hpq (by omega)
      · exact hinv1.all_le
      · intro h1
        exact hinv1.pos (by omega)
      · intro j hj1 hj2
        exact hinv1.pos_entries j hj1 (by omega)

/-- Collected invariants of the constructed lookup table: size `2^B + 1`,
`LutEnd` a valid bucket, all entries at most `N - 1`, entries monotone over
the bucket range, and entries in `[1, LutEnd)` nonzero. -/
theorem InitLut_spec (mapV : α → Nat) (B : Nat) (vals : List α)
    (hB2 : B ≤ 31) (hm : ∀ v ∈ vals, mapV v < 4294967296) :
    (InitLut mapV B vals).1.length = 2 ^ B + 1 ∧
    (InitLut mapV B vals).2 ≤ 2 ^ B - 1 ∧
    (∀ j, lutGet (InitLut mapV B vals).1 j ≤ vals.length - 1) ∧
    (∀ p q, p ≤ q → q ≤ 2 ^ B - 1 →
      lutGet (InitLut mapV B vals).1 p ≤ lutGet (InitLut mapV B vals).1 q) ∧
    (∀ j, 1 ≤ j → j < (InitLut mapV B vals).2 →
      1 ≤ lutGet (InitLut mapV B vals).1 j) := by
  have h2B : 1 ≤ 2 ^ B := Nat.one_le_two_pow
  have hm2 : ∀ v ∈ vals.tail, mapV v < 4294967296 := fun v hv =>
    hm v (List.mem_of_mem_tail hv)
  have hinv0 : LutInv B 0 0 0 (List.replicate (2 ^ B + 1) 0) := by
    refine ⟨by simp, by omega, Nat.le_refl _, ?_, ?_, by omega, ?_⟩
    · intro p q _ _; rw [lutGet_replicate, lutGet_replicate]
    · intro j; rw [lutGet_replicate]
    · intro j hj1 hj2; omega
  have hinv := InitLutLoop_inv mapV B hB2 vals.tail 0 0 0
    (List.replicate (2 ^ B + 1) 0) hm2 hinv0
  set r := InitLutLoop mapV B 0 0 0 (List.replicate (2 ^ B + 1) 0) vals.tail
    with hr
  have hlastN : r.2.2 ≤ vals.length - 1 := by
    have h1 := hinv.last_le
    have h2 : vals.tail.length = vals.length - 1 := by
      cases vals <;> simp
    omega
  have hthresh := hinv.thresh_le
  have hlenr := hinv.len_eq
  have hILut : InitLut mapV B vals =
      (lutFill r.1 r.2.2 r.2.1 (2 ^ B - r.2.1), r.2.1) := rfl
  rw [hILut]
  have hget_low : ∀ j, j < r.2.1 →
      lutGet (lutFill r.1 r.2.2 r.2.1 (2 ^ B - r.2.1)) j = lutGet r.1 j := by
    intro j hj
    exact lutGet_lutFill_of_lt _ _ _ _ _ hj
  have hget_mem : ∀ j, r.2.1 ≤ j → j ≤ 2 ^ B - 1 →
      lutGet (lutFill r.1 r.2.2 r.2.1 (2 ^ B - r.2.1)) j = r.2.2 := by
    intro j hj1 hj2
    exact lutGet_lutFill_mem _ _ _ _ _ hj1 (by omega) (by rw [hlenr]; omega)
  have hget_high : ∀ j, 2 ^ B ≤ j →
      lutGet (lutFill r.1 r.2.2 r.2.1 (2 ^ B - r.2.1)) j = lutGet r.1 j := by
    intro j hj
    exact lutGet_lutFill_of_ge _ _ _ _ _ (by omega)
  refine ⟨by rw [length_lutFill, hlenr], hthresh, ?_, ?_, ?_⟩
  · intro j
    by_cases hj1 : j < r.2.1
    · rw [hget_low j hj1]
      have := hinv.all_le j
      omega
    · by_cases hj2 : j ≤ 2 ^ B - 1
      · rw [hget_mem j (by omega) hj2]
        exact hlastN
      · rw [hget_high j (by omega)]
        have := hinv.all_le j
        omega
  · intro p q hpq hqt
    by_cases hq : q < r.2.1
    · rw [hget_low p (by omega), hget_low q hq]
      exact hinv.mono p q hpq (by omega)
    · rw [hget_mem q (by omega) hqt]
      by_cases hp : p < r.2.1
      · rw [hget_low p hp]
        exact hinv.all_le p
      · rw [hget_mem p (by omega) (by omega)]
  · intro j hj1 hj2
    rw [hget_low j hj2]
    exact hinv.pos_entries j hj1 (by omega)

/-! ### Claim theorems -/

/-- C1: the claim that `LutBinarySearch`, `MyBinarySearch` and
`StdBinarySearch` agree and return a matching index for every present key
fails on the code.  At `B = 1`, `vals = [0x80000000, 0x90000000]` (sorted in
the unsigned domain) and `key = 0x80000000` (present at index 0), the
baseline and the plain search return 0, but the LUT-narrowed search returns
1, where `vals[1] ≠ key`: `InitLut` never accounts for the first element's
bucket being nonzero, so `Lut[1] = 1` excludes index 0 from the narrowed
interval. -/
theorem C1_lut_disagrees_on_present_key :
    StdBinarySearch ltbUInt32 eqbUInt32 [2147483648, 2415919104]
      2147483648 = 0 ∧
    MyBinarySearch ltbUInt32 [2147483648, 2415919104] 2147483648 = some 0 ∧
    LutBinarySearch MapValueUInt32 ltbUInt32 1 [2147483648, 2415919104]
      2147483648 = some 1 ∧
    List.getD [2147483648, 2415919104] 1 0 ≠ 2147483648 ∧
    List.getD [2147483648, 2415919104] 0 0 = 2147483648 := by
  decide

/-- C2: the claim that all three variants return the not-found sentinel for
absent keys fails on the code.  `BinarySearch` returns `__first`
unconditionally at main.cpp line 101; the `vals[first] == key` post-check of
the claim exists only as unreachable code after that `return` (lines
120-121).  At `vals = [1, 3]`, absent `key = 2`, only `StdBinarySearch`
returns `-1`; the other two return the insertion position 1. -/
theorem C2_no_not_found_sentinel :
    StdBinarySearch ltbUInt32 eqbUInt32 [1, 3] 2 = -1 ∧
    MyBinarySearch ltbUInt32 [1, 3] 2 = some 1 ∧
    LutBinarySearch MapValueUInt32 ltbUInt32 1 [1, 3] 2 = some 1 ∧
    ¬ (2 ∈ [1, 3]) := by
  decide

/-- C3: the claimed characterisation of the table entries fails on the code.
At `B = 1`, `vals = [0x80000000, 0x90000000]`, the first array element
already lies in bucket 1 (its mapped top bit is 1), so the first element
whose bucket is ≥ 1 has index 0; the claim requires `Lut[1] = 0`, but
`InitLut` produces `Lut[1] = 1` (with `LutEnd = 1`, so bucket 1 is covered
by the claim). -/
theorem C3_lut_entry_wrong_for_initial_bucket :
    (InitLut MapValueUInt32 1 [2147483648, 2415919104]).2 = 1 ∧
    lutGet (InitLut MapValueUInt32 1 [2147483648, 2415919104]).1 1 = 1 ∧
    MapValueUInt32 (List.getD [2147483648, 2415919104] 0 0) >>> (32 - 1)
      = 1 := by
  decide

/-- C4: for the empty array, construction indeed succeeds (the table is all
zeros), and `StdBinarySearch` returns `-1`; but `MyBinarySearch` and
`LutBinarySearch` do not return the sentinel as claimed: they compute
`__len = (size_t)(-1) = 2^64 - 1` and immediately read `Vals[2^63 - 1]` out
of bounds (modelled by `none`). -/
theorem C4_empty_array_behaviour :
    InitLut MapValueUInt32 1 ([] : List Nat) = ([0, 0, 0], 0) ∧
    StdBinarySearch ltbUInt32 eqbUInt32 ([] : List Nat) 5 = -1 ∧
    MyBinarySearch ltbUInt32 ([] : List Nat) 5 = none ∧
    LutBinarySearch MapValueUInt32 ltbUInt32 1 ([] : List Nat) 5 = none := by
  decide

/-- C7: the lowest-index rule for duplicated keys fails on the code.  At
`B = 1`, `vals = [0x80000000, 0x80000000]` and `key = 0x80000000` (occurring
at indices 0 and 1), the baseline and plain search return the lowest index
0, but the LUT-narrowed search returns 1 (same initial-bucket defect of
`InitLut` as in C1). -/
theorem C7_duplicates_not_lowest_index :
    StdBinarySearch ltbUInt32 eqbUInt32 [2147483648, 2147483648]
      2147483648 = 0 ∧
    MyBinarySearch ltbUInt32 [2147483648, 2147483648] 2147483648 = some 0 ∧
    LutBinarySearch MapValueUInt32 ltbUInt32 1 [2147483648, 2147483648]
      2147483648 = some 1 := by
  decide

/-- C6, counterexample: the claim prescribes the narrowed end `N - 1`
exactly when `bucket + 1 > LutEnd` and `Lut[bucket+1] - 1` otherwise, but
the code tests `>=` (main.cpp line 75).  At `B = 1`, `vals = [0, 2^31]`,
`key = 0`: `bucket + 1 = 1 = LutEnd`, the claim's formula gives
`Lut[1] - 1 = 0`, while the code uses `N - 1 = 1`. -/
theorem C6_narrowed_end_counterexample :
    ¬ (LutNarrowedEnd MapValueUInt32 1 [0, 2147483648] 0 =
      if (InitLut MapValueUInt32 1 [0, 2147483648]).2 <
          MapValueUInt32 0 >>> (32 - 1) + 1
      then [0, 2147483648].length - 1
      else lutGet (InitLut MapValueUInt32 1 [0, 2147483648]).1
        (MapValueUInt32 0 >>> (32 - 1) + 1) - 1) := by
  decide

/-- C6, amended: for every constructed index over a non-empty (not
excessively large) array, the narrowed interval end equals `N - 1` exactly
when `bucket + 1 ≥ LutEnd` (the code's `>=`), and `Lut[bucket+1] - 1`
otherwise; in the latter case the accessed entry is at least 1, so the
`size_t` decrement is an honest subtraction. -/
theorem C6_narrowed_end_amended {α : Type} (mapV : α → Nat) (B : Nat)
    (vals : List α) (key : α) (hB1 : 1 ≤ B) (hB2 : B ≤ 31)
    (hN : 1 ≤ vals.length) (hN2 : vals.length ≤ 9223372036854775808)
    (hm : ∀ v ∈ vals, mapV v < 4294967296) :
    LutNarrowedEnd mapV B vals key =
      if (InitLut mapV B vals).2 ≤ mapV key >>> (32 - B) + 1
      then vals.length - 1
      else lutGet (InitLut mapV B vals).1 (mapV key >>> (32 - B) + 1) - 1 := by
  obtain ⟨_, _, hentries, _, hpos⟩ := InitLut_spec mapV B vals hB2 hm
  simp only [LutNarrowedEnd]
  by_cases hc : (InitLut mapV B vals).2 ≤ mapV key >>> (32 - B) + 1
  · rw [if_pos hc, if_pos hc]
    exact subOne64_eq hN (by unfold U64; omega)
  · rw [if_neg hc, if_neg hc]
    have h1 : 1 ≤ lutGet (InitLut mapV B vals).1
        (mapV key >>> (32 - B) + 1) :=
      hpos _ (Nat.succ_le_succ (Nat.zero_le _)) (Nat.not_le.mp hc)
    have h2 := hentries (mapV key >>> (32 - B) + 1)
    exact subOne64_eq h1 (by unfold U64; omega)

/-- Witness for the amended C6 at `B = 1`, `vals = [0, 2^31]`,
`key = 2^31`. -/
theorem C6_narrowed_end_amended_witness :
    LutNarrowedEnd MapValueUInt32 1 [0, 2147483648] 2147483648 =
      if (InitLut MapValueUInt32 1 [0, 2147483648]).2 ≤
          MapValueUInt32 2147483648 >>> (32 - 1) + 1
      then [0, 2147483648].length - 1
      else lutGet (InitLut MapValueUInt32 1 [0, 2147483648]).1
        (MapValueUInt32 2147483648 >>> (32 - 1) + 1) - 1 :=
  C6_narrowed_end_amended MapValueUInt32 1 [0, 2147483648] 2147483648
    (by decide) (by decide) (by decide) (by decide)
    (by intro v hv; fin_cases hv <;> decide)

/-- C8: for any bit width in `[1, 31]` and any backing array of 32-bit
mapped keys, the constructed lookup table is non-decreasing along the
bucket indices `0 … 2^B - 1`.  This is proved for arbitrary arrays, hence
in particular for every sorted array in each supported domain. -/
theorem C8_lut_monotone {α : Type} (mapV : α → Nat) (B : Nat)
    (vals : List α) (hB1 : 1 ≤ B) (hB2 : B ≤ 31)
    (hm : ∀ v ∈ vals, mapV v < 4294967296) :
    ∀ p q, p ≤ q → q + 1 ≤ 2 ^ B →
      lutGet (InitLut mapV B vals).1 p ≤
        lutGet (InitLut mapV B vals).1 q := by
  intro p q hpq hq
  exact (InitLut_spec mapV B vals hB2 hm).2.2.2.1 p q hpq (by omega)

/-- Witness for C8 at `B = 1`, `vals = [0, 2^31]`, buckets 0 and 1. -/
theorem C8_lut_monotone_witness :
    lutGet (InitLut MapValueUInt32 1 [0, 2147483648]).1 0 ≤
      lutGet (InitLut MapValueUInt32 1 [0, 2147483648]).1 1 :=
  C8_lut_monotone MapValueUInt32 1 [0, 2147483648] (by decide) (by decide)
    (by intro v hv; fin_cases hv <;> decide) 0 1 (by decide) (by decide)

/-- C9, counterexample: `LutBinarySearch` is not memory-safe for every key
over a non-empty array.  At `B = 2`, `vals = [2^30, 3·2^30, 3·2^30+1]` and
`key = 2^30` (present at index 0), the table is `[0,1,1,1,0]` with
`LutEnd = 3`; the narrowed interval is `[Lut[1], Lut[2]-1] = [1, 0]`, so
`__len` wraps to `2^64 - 1` and the loop reads `Vals[2^63]` out of bounds
(modelled by `none`). -/
theorem C9_lut_search_oob_counterexample :
    LutBinarySearch MapValueUInt32 ltbUInt32 2
      [1073741824, 3221225472, 3221225473] 1073741824 = none := by
  decide

/-- C9, amended: over a non-empty array, `MyBinarySearch` performs only
in-bounds reads and returns an index in `[0, N-1]` for every key; and
`LutBinarySearch` does the same whenever its narrowed interval
`[Lut[bucket], end]` is non-empty (`start ≤ end`).  (A `some` result is
precisely the absence of any out-of-bounds access in this embedding.) -/
theorem C9_inbounds_amended {α : Type} (mapV : α → Nat)
    (ltb : α → α → Bool) (B : Nat) (vals : List α) (key : α)
    (hB1 : 1 ≤ B) (hB2 : B ≤ 31) (hN : 1 ≤ vals.length)
    (hN2 : vals.length ≤ 9223372036854775808)
    (hm : ∀ v ∈ vals, mapV v < 4294967296) :
    (∃ f : Nat, MyBinarySearch ltb vals key = some (f : Int) ∧
      f + 1 ≤ vals.length) ∧
    (lutGet (InitLut mapV B vals).1 (mapV key >>> (32 - B)) ≤
        LutNarrowedEnd mapV B vals key →
      ∃ f : Nat, LutBinarySearch mapV ltb B vals key = some (f : Int) ∧
        f + 1 ≤ vals.length) := by
  obtain ⟨_, _, hentries, _, hpos⟩ := InitLut_spec mapV B vals hB2 hm
  constructor
  · unfold MyBinarySearch BinarySearch
    have hcast : (vals.length : Int) - 1 - 0 =
        ((vals.length - 1 : Nat) : Int) := by
      push_cast [hN]; omega
    rw [hcast, toU64_of_lt (show vals.length - 1 < U64 by unfold U64; omega)]
    have h0 : toU64 0 = 0 := rfl
    rw [h0]
    obtain ⟨f, hf, _, hf2⟩ := bsLoop_some ltb vals key (vals.length - 1)
      (vals.length - 1) 0 (Nat.le_refl _) (by omega) hN2
    refine ⟨f, ?_, by omega⟩
    rw [hf]
    have hts : toS64 f = (f : Int) := toS64_of_lt (by omega)
    simp [hts]
  · intro hse
    have hsN : lutGet (InitLut mapV B vals).1 (mapV key >>> (32 - B)) ≤
        vals.length - 1 := hentries _
    have heN : LutNarrowedEnd mapV B vals key ≤ vals.length - 1 := by
      simp only [LutNarrowedEnd]
      split
      · rw [subOne64_eq hN (by unfold U64; omega)]
      · rename_i hc
        have h1 : 1 ≤ lutGet (InitLut mapV B vals).1
            (mapV key >>> (32 - B) + 1) :=
          hpos _ (Nat.succ_le_succ (Nat.zero_le _)) (Nat.not_le.mp hc)
        have h2 := hentries (mapV key >>> (32 - B) + 1)
        rw [subOne64_eq h1 (by unfold U64; omega)]
        omega
    simp only [LutBinarySearch, BinarySearch]
    rw [toS64_of_lt (show lutGet (InitLut mapV B vals).1
        (mapV key >>> (32 - B)) < 9223372036854775808 by omega),
      toS64_of_lt (show LutNarrowedEnd mapV B vals key <
        9223372036854775808 by omega),
      toU64_sub_of_le hse (by unfold U64; omega),
      toU64_of_lt (show lutGet (InitLut mapV B vals).1
        (mapV key >>> (32 - B)) < U64 by unfold U64; omega)]
    obtain ⟨f, hf, _, hf2⟩ := bsLoop_some ltb vals key
      (LutNarrowedEnd mapV B vals key -
        lutGet (InitLut mapV B vals).1 (mapV key >>> (32 - B)))
      (LutNarrowedEnd mapV B vals key -
        lutGet (InitLut mapV B vals).1 (mapV key >>> (32 - B)))
      (lutGet (InitLut mapV B vals).1 (mapV key >>> (32 - B)))
      (Nat.le_refl _) (by omega) hN2
    refine ⟨f, ?_, by omega⟩
    rw [hf]
    have hts : toS64 f = (f : Int) := toS64_of_lt (by omega)
    simp [hts]

/-- Witness for the amended C9 at `B = 1`, `vals = [5]`, `key = 5`. -/
theorem C9_inbounds_amended_witness :
    (∃ f : Nat, MyBinarySearch ltbUInt32 [5] 5 = some (f : Int) ∧
      f + 1 ≤ [5].length) ∧
    (lutGet (InitLut MapValueUInt32 1 [5]).1 (MapValueUInt32 5 >>> (32 - 1)) ≤
        LutNarrowedEnd MapValueUInt32 1 [5] 5 →
      ∃ f : Nat, LutBinarySearch MapValueUInt32 ltbUInt32 1 [5] 5 =
          some (f : Int) ∧ f + 1 ≤ [5].length) :=
  C9_inbounds_amended MapValueUInt32 ltbUInt32 1 [5] 5 (by decide)
    (by decide) (by decide) (by decide)
    (by intro v hv; fin_cases hv <;> decide)

/-- C10: for any constructed index over a non-empty array, the table has
exactly `2^B + 1` entries, every entry is a valid array index
(`entry ≤ N - 1`), `LutEnd` is at most `2^B - 1`, and for every 32-bit
mapped key both accesses `Lut[lutIdx]` and `Lut[lutIdx + 1]` fall within
the `2^B + 1` entries. -/
theorem C10_lut_bounds {α : Type} (mapV : α → Nat) (B : Nat)
    (vals : List α) (hB1 : 1 ≤ B) (hB2 : B ≤ 31) (hN : 1 ≤ vals.length)
    (hm : ∀ v ∈ vals, mapV v < 4294967296) :
    (InitLut mapV B vals).1.length = 2 ^ B + 1 ∧
    (∀ j, lutGet (InitLut mapV B vals).1 j + 1 ≤ vals.length) ∧
    (InitLut mapV B vals).2 + 1 ≤ 2 ^ B ∧
    (∀ key, mapV key < 4294967296 →
      mapV key >>> (32 - B) + 1 + 1 ≤ (InitLut mapV B vals).1.length) := by
  obtain ⟨hlen, hend, hentries, _, _⟩ := InitLut_spec mapV B vals hB2 hm
  have h2B : 1 ≤ 2 ^ B := Nat.one_le_two_pow
  refine ⟨hlen, ?_, by omega, ?_⟩
  · intro j
    have := hentries j
    omega
  · intro k hk
    have := bucket_lt (B := B) (by omega) hk
    rw [hlen]
    omega

/-- Witness for C10 at `B = 1`, `vals = [5]`. -/
theorem C10_lut_bounds_witness :
    (InitLut MapValueUInt32 1 [5]).1.length = 2 ^ 1 + 1 ∧
    (∀ j, lutGet (InitLut MapValueUInt32 1 [5]).1 j + 1 ≤ [5].length) ∧
    (InitLut MapValueUInt32 1 [5]).2 + 1 ≤ 2 ^ 1 ∧
    (∀ key, MapValueUInt32 key < 4294967296 →
      MapValueUInt32 key >>> (32 - 1) + 1 + 1 ≤
        (InitLut MapValueUInt32 1 [5]).1.length) :=
  C10_lut_bounds MapValueUInt32 1 [5] (by decide) (by decide) (by decide)
    (by intro v hv; fin_cases hv <;> decide)

end LutSearch
